import Mathlib

/-!
Verification development for the SentinelAI Recommendation and Stage-Gating
Engine. The definitions below shallowly embed the data model and the
operations of the engine: profile completeness, the Stage Gate, the
Shortlist and Lock Manager, the Classification Engine with its retry and
fallback discipline, the Recommendation Aggregator, the counsellor gating,
and the onboarding form state updates from the frontend.
-/

namespace SentinelAI

/-! ## Data model -/

/-- University identity: shortlist entries and classification results are
keyed by (name, country), as given by the data model. -/
structure UniversityIdentity where
  name : String
  country : String
deriving DecidableEq, Repr

/-- Tier: one of dream, target, safe. -/
inductive Category where
  | dream
  | target
  | safe
deriving DecidableEq, Repr

/-- Cost level of a classification result. -/
inductive CostLevel where
  | low
  | medium
  | high
deriving DecidableEq, Repr

/-- Acceptance chance of a classification result. -/
inductive Chance where
  | low
  | medium
  | high
deriving DecidableEq, Repr

/-- Annual budget range bucket, as in the onboarding form
(onboarding/page.tsx, step 3). -/
inductive BudgetBucket where
  | under_10k
  | b10k_20k
  | b20k_40k
  | b40k_60k
  | above_60k
deriving DecidableEq, Repr

/-- Candidate university: name, country, website metadata. Immutable and
sourced externally. -/
structure CandidateUniversity where
  name : String
  country : String
  website : String
deriving DecidableEq, Repr

/-- Student profile part needed by the Classification Engine fallback:
preferred countries and budget bucket. The full profile also holds the
academic background and exam readiness sections; completeness of the whole
profile is tracked by a derived Boolean in the theorems below. -/
structure StudentProfile where
  preferred_countries : List String
  budget_range_per_year : BudgetBucket
deriving DecidableEq, Repr

/-- Classification result for one candidate. -/
structure ClassificationResult where
  candidate : CandidateUniversity
  category : Category
  fit_reasons : List String
  risks : List String
  cost_level : CostLevel
  acceptance_chance : Chance
  degraded : Bool
deriving DecidableEq, Repr

/-- Shortlist entry, keyed per user by university identity. -/
structure ShortlistEntry where
  identity : UniversityIdentity
  category : Category
  is_locked : Bool
  added_at : Nat
deriving DecidableEq, Repr

/-- A single user shortlist. All manager operations are keyed per user, so
one user shortlist suffices to state the per-user contracts. -/
abbrev Shortlist := List ShortlistEntry

/-! ## Stage Gate -/

/-- The four stages of the gating state machine. -/
inductive StageState where
  | BuildingProfile
  | DiscoveringUniversities
  | FinalizingUniversities
  | PreparingApplications
deriving DecidableEq, Repr

/-- Modelled from the spec: the backend stage endpoint is not among the
source files (only the directives and the dashboard caller are), so the
Stage Gate is taken verbatim from section 4.5 of the specification: a pure
function of profile completeness, shortlist contents and lock state,
recomputed from scratch on every query. -/
def computeStage (complete : Bool) (shortlist : Shortlist) : StageState :=
  if complete = false then StageState.BuildingProfile
  else if shortlist.isEmpty then StageState.DiscoveringUniversities
  else if shortlist.any (fun e => e.is_locked) then StageState.PreparingApplications
  else StageState.FinalizingUniversities

/-! ## Counsellor gating -/

/-- Gate error surfaced with HTTP status 403. -/
inductive GateError where
  | gate
deriving DecidableEq, Repr

/-- Modelled from the spec: true iff the profile is complete. -/
def canAccessCounsellor (profileComplete : Bool) : Bool := profileComplete

/-- One event of the counsellor streaming response: a text chunk or the
explicit end marker. -/
inductive StreamEvent where
  | chunk (text : String)
  | endMarker
deriving DecidableEq, Repr

/-- Modelled from the spec: the counsellor chat endpoint is not among the
source files; per sections 4.6 and 6, chat fails with GateError when
canAccessCounsellor is false and otherwise returns the upstream reply. -/
def chat (profileComplete : Bool) (history : List String) (upstreamReply : String) :
    Except GateError String :=
  if canAccessCounsellor profileComplete then Except.ok upstreamReply
  else Except.error GateError.gate

/-- Modelled from the spec: the streaming counsellor endpoint is not among
the source files; per sections 4.6 and 6 it fails with GateError when
canAccessCounsellor is false and otherwise emits the upstream chunks as a
finite sequence terminated by an explicit end marker (the frontend reads
data chunks until the DONE sentinel). -/
def streamChat (profileComplete : Bool) (history : List String)
    (upstreamChunks : List String) : Except GateError (List StreamEvent) :=
  if canAccessCounsellor profileComplete then
    Except.ok (upstreamChunks.map StreamEvent.chunk ++ [StreamEvent.endMarker])
  else Except.error GateError.gate

/-! ## Shortlist and Lock Manager -/

/-- Error taxonomy of the Shortlist and Lock Manager. -/
inductive ShortlistError where
  | AlreadyShortlisted
  | RemoveLockedError
  | NotFound
deriving DecidableEq, Repr

/-- Boolean test that an entry carries the given identity. -/
def matchesIdentity (u : UniversityIdentity) (e : ShortlistEntry) : Bool :=
  decide (e.identity = u)

/-- Modelled from the spec: the shortlist service is not among the source
files (only the universities directive is); per section 4.4 and the
directive edge cases, add fails with AlreadyShortlisted if an entry already
exists for that identity, else appends a new unlocked entry. -/
def add (s : Shortlist) (u : UniversityIdentity) (c : Category) (t : Nat) :
    Except ShortlistError Shortlist :=
  if s.any (matchesIdentity u) then Except.error ShortlistError.AlreadyShortlisted
  else Except.ok (s ++ [{ identity := u, category := c, is_locked := false, added_at := t }])

/-- Modelled from the spec: remove fails with NotFound when no entry has the
identity, with RemoveLockedError when the entry is locked, and otherwise
deletes the entry. -/
def remove (s : Shortlist) (u : UniversityIdentity) : Except ShortlistError Shortlist :=
  match s.find? (matchesIdentity u) with
  | none => Except.error ShortlistError.NotFound
  | some e =>
    if e.is_locked then Except.error ShortlistError.RemoveLockedError
    else Except.ok (s.filter (fun e => !matchesIdentity u e))

/-- Modelled from the spec: lock fails with NotFound if no such entry
exists, and otherwise sets the lock flag; idempotent if already locked. -/
def lock (s : Shortlist) (u : UniversityIdentity) : Except ShortlistError Shortlist :=
  if s.any (matchesIdentity u) then
    Except.ok (s.map (fun e => if matchesIdentity u e then { e with is_locked := true } else e))
  else Except.error ShortlistError.NotFound

/-- Modelled from the spec: unlock fails with NotFound if no such entry
exists, and otherwise clears the lock flag; idempotent if already
unlocked. -/
def unlock (s : Shortlist) (u : UniversityIdentity) : Except ShortlistError Shortlist :=
  if s.any (matchesIdentity u) then
    Except.ok (s.map (fun e => if matchesIdentity u e then { e with is_locked := false } else e))
  else Except.error ShortlistError.NotFound

/-- A mutation request against the manager. -/
inductive Op where
  | add (u : UniversityIdentity) (c : Category) (t : Nat)
  | remove (u : UniversityIdentity)
  | lock (u : UniversityIdentity)
  | unlock (u : UniversityIdentity)
deriving DecidableEq, Repr

/-- Apply one operation; a failing operation leaves the shortlist
unchanged (the error is surfaced to the caller, not applied). -/
def applyOp (s : Shortlist) (o : Op) : Shortlist :=
  match o with
  | Op.add u c t => (add s u c t).toOption.getD s
  | Op.remove u => (remove s u).toOption.getD s
  | Op.lock u => (lock s u).toOption.getD s
  | Op.unlock u => (unlock s u).toOption.getD s

/-- Run a sequence of operations from the empty shortlist of a fresh
user. -/
def run (ops : List Op) : Shortlist := ops.foldl applyOp []

/-- The per-user uniqueness invariant: no two entries share a university
identity. -/
def UniqueIdent (s : Shortlist) : Prop := (s.map (fun e => e.identity)).Nodup

/-! ## Classification Engine -/

/-- Competitiveness tier of a destination country, a static table used only
by the deterministic fallback heuristic. -/
def countryTier (c : String) : Nat :=
  if c = "United States" ∨ c = "United Kingdom" then 0
  else if c = "Canada" ∨ c = "Australia" ∨ c = "Singapore" then 1
  else 2

/-- Static mapping of budget bucket to fallback cost level. -/
def fallbackCost (b : BudgetBucket) : CostLevel :=
  match b with
  | BudgetBucket.under_10k => CostLevel.low
  | BudgetBucket.b10k_20k => CostLevel.low
  | BudgetBucket.b20k_40k => CostLevel.medium
  | BudgetBucket.b40k_60k => CostLevel.high
  | BudgetBucket.above_60k => CostLevel.high

/-- Static mapping of country tier to fallback acceptance chance. -/
def fallbackChance (tier : Nat) : Chance :=
  if tier = 0 then Chance.low
  else if tier = 1 then Chance.medium
  else Chance.high

/-- Category implied by the fallback acceptance chance. -/
def categoryOfChance (ch : Chance) : Category :=
  match ch with
  | Chance.low => Category.dream
  | Chance.medium => Category.target
  | Chance.high => Category.safe

/-- Modelled from the spec: the rag pipeline is not among the source files;
per section 4.2, on retry exhaustion the engine falls back to a
deterministic heuristic - a static mapping of budget bucket and country
tier to cost level and acceptance chance, with generic fit and risk text -
and sets the degraded flag. -/
def fallbackClassify (p : StudentProfile) (c : CandidateUniversity) : ClassificationResult :=
  let ch := fallbackChance (countryTier c.country)
  { candidate := c
    category := categoryOfChance ch
    fit_reasons := ["Located in one of your preferred destinations", "Within reach of your budget plan"]
    risks := ["Generated by fallback heuristic while the classification service was unavailable"]
    cost_level := fallbackCost p.budget_range_per_year
    acceptance_chance := ch
    degraded := true }

/-- Retry budget of the external classification call. -/
def maxRetries : Nat := 3

/-- An oracle for the external classification service: given a candidate
and an attempt number, either a schema-valid result or a failure (a
transport error or a schema-invalid response, both treated as transient). -/
def ClassifyOracle : Type :=
  CandidateUniversity → Nat → Option ClassificationResult

/-- Try the external call up to n attempts, returning the first success. -/
def firstSuccess (oracle : ClassifyOracle) (c : CandidateUniversity) : Nat → Option ClassificationResult
  | 0 => none
  | Nat.succ n =>
    match oracle c n with
    | some r => some r
    | none => firstSuccess oracle c n

/-- Modelled from the spec: classify one candidate with bounded retries,
degrading to the deterministic fallback on exhaustion rather than
failing. -/
def classifyOne (oracle : ClassifyOracle) (p : StudentProfile) (c : CandidateUniversity) :
    ClassificationResult :=
  match firstSuccess oracle c maxRetries with
  | some r => r
  | none => fallbackClassify p c

/-- Modelled from the spec: candidates are classified independently; a
candidate whose retries are exhausted yields a degraded fallback result,
never a whole-batch failure, so classify always returns one result per
candidate. -/
def classify (oracle : ClassifyOracle) (p : StudentProfile)
    (candidates : List CandidateUniversity) : List ClassificationResult :=
  candidates.map (classifyOne oracle p)

/-! ## Recommendation Aggregator -/

/-- Identity of the university a classification result refers to. -/
def identOf (r : ClassificationResult) : UniversityIdentity :=
  { name := r.candidate.name, country := r.candidate.country }

/-- One step of deduplication by university identity: a result for a new
identity is appended; on a collision the non-degraded result is kept when
the stored one is degraded and the new one is not, else the stored one is
kept. -/
def dedupStep (acc : List ClassificationResult) (r : ClassificationResult) :
    List ClassificationResult :=
  match acc.find? (fun a => decide (identOf a = identOf r)) with
  | none => acc ++ [r]
  | some a =>
    if a.degraded && !r.degraded then
      acc.map (fun b => if identOf b = identOf r then r else b)
    else acc

/-- Modelled from the spec: deduplicate by university identity, keeping the
non-degraded result if both a degraded and a non-degraded result exist for
the same identity. -/
def dedup (results : List ClassificationResult) : List ClassificationResult :=
  results.foldl dedupStep []

/-- Numeric rank of an acceptance chance, used for ordering. -/
def chanceRank (ch : Chance) : Nat :=
  match ch with
  | Chance.low => 0
  | Chance.medium => 1
  | Chance.high => 2

/-- The deterministic tier ordering: descending acceptance chance, ties
broken by ascending candidate name. -/
def aggLE (a b : ClassificationResult) : Prop :=
  chanceRank b.acceptance_chance < chanceRank a.acceptance_chance ∨
    (chanceRank a.acceptance_chance = chanceRank b.acceptance_chance ∧
      a.candidate.name ≤ b.candidate.name)

instance : DecidableRel aggLE := fun a b => by
  unfold aggLE
  infer_instance

instance : IsTotal ClassificationResult aggLE where
  total a b := by
    unfold aggLE
    rcases Nat.lt_trichotomy (chanceRank a.acceptance_chance) (chanceRank b.acceptance_chance)
      with h | h | h
    · exact Or.inr (Or.inl h)
    · rcases le_total a.candidate.name b.candidate.name with hn | hn
      · exact Or.inl (Or.inr ⟨h, hn⟩)
      · exact Or.inr (Or.inr ⟨h.symm, hn⟩)
    · exact Or.inl (Or.inl h)

instance : IsTrans ClassificationResult aggLE where
  trans a b c hab hbc := by
    unfold aggLE at *
    rcases hab with h1 | ⟨h1, hn1⟩
    · rcases hbc with h2 | ⟨h2, _⟩
      · exact Or.inl (by omega)
      · exact Or.inl (by omega)
    · rcases hbc with h2 | ⟨h2, hn2⟩
      · exact Or.inl (by omega)
      · exact Or.inr ⟨by omega, hn1.trans hn2⟩

/-- The three tier partitions returned by the aggregator. -/
structure Recommendations where
  dream : List ClassificationResult
  target : List ClassificationResult
  safe : List ClassificationResult
deriving Repr

/-- Modelled from the spec: the aggregator is not among the source files;
per section 4.3 it groups by category, deduplicates by university identity
keeping the non-degraded result, and returns a deterministic stable
ordering inside each tier (descending acceptance chance then name). -/
def aggregate (results : List ClassificationResult) : Recommendations :=
  { dream := ((dedup results).filter
      (fun r => decide (r.category = Category.dream))).insertionSort aggLE
    target := ((dedup results).filter
      (fun r => decide (r.category = Category.target))).insertionSort aggLE
    safe := ((dedup results).filter
      (fun r => decide (r.category = Category.safe))).insertionSort aggLE }

/-- The flattened aggregator output, dream then target then safe. -/
def allTiers (a : Recommendations) : List ClassificationResult :=
  a.dream ++ a.target ++ a.safe

/-! ## Frontend form state (onboarding/page.tsx and profile/page.tsx)

The onboarding and profile pages hold the form state as a JavaScript
object of four section objects and mutate it with
updateField(section, field, value), implemented with object spreads over a
computed key. JavaScript objects are embedded as ordered association
lists of key-value pairs, and the spread update as setKey below, which
keeps every other key in place. -/

/-- A JavaScript value as used by the form state: strings, numbers, null,
string arrays (preferred_countries) and nested objects. -/
inductive JsValue where
  | vstr (s : String)
  | vnum (n : Int)
  | vnull
  | varr (l : List String)
  | vobj (o : List (String × JsValue))

/-- A JavaScript object: ordered association list of fields. -/
abbrev JsObj := List (String × JsValue)

/-- The object spread update of onboarding/page.tsx line 81: every key of
the original object is kept in place, the given key is overwritten when
present and appended when absent. -/
def setKey (o : JsObj) (k : String) (v : JsValue) : JsObj :=
  if o.any (fun p => p.1 = k) then
    o.map (fun p => if p.1 = k then (k, v) else p)
  else o ++ [(k, v)]

/-- Read a key of a JavaScript object (first occurrence). -/
def getKey : JsObj → String → Option JsValue
  | [], _ => none
  | p :: l, k => if p.1 = k then some p.2 else getKey l k

/-- The section object stored under a key, the empty object when the key is
absent or not an object. -/
def getSection (o : JsObj) (k : String) : JsObj :=
  match getKey o k with
  | some (JsValue.vobj s) => s
  | _ => []

/-- The updateField handler of onboarding/page.tsx lines 80-88 (the profile
page handler at lines 83-92 is the same computation on the fetched data):
spread the previous state, replacing the section object by a spread of
itself with the single field overwritten. -/
def updateField (prev : JsObj) (sec fld : String) (value : JsValue) : JsObj :=
  setKey prev sec (JsValue.vobj (setKey (getSection prev sec) fld value))

/-- The preferred-countries chip handler of onboarding/page.tsx lines
233-239: when the country is already selected, filter it out of the list,
else append it. -/
def toggleCountry (current : List String) (country : String) : List String :=
  if current.contains country then current.filter (fun c => c ≠ country)
  else current ++ [country]

/-! ## Theorems -/

/-- C1: The Stage Gate is a total function of profile completeness,
shortlist contents and lock state (computeStage is defined on every such
state), and it returns BuildingProfile whenever the profile is incomplete
regardless of shortlist and lock contents, DiscoveringUniversities when the
profile is complete and the shortlist is empty, FinalizingUniversities when
the profile is complete, the shortlist is non-empty and no entry is locked,
and PreparingApplications when the profile is complete and at least one
entry is locked. -/
theorem computeStage_cases (complete : Bool) (s : Shortlist) :
    (complete = false → computeStage complete s = StageState.BuildingProfile) ∧
    (complete = true → s = [] → computeStage complete s = StageState.DiscoveringUniversities) ∧
    (complete = true → s ≠ [] → (∀ e ∈ s, e.is_locked = false) →
      computeStage complete s = StageState.FinalizingUniversities) ∧
    (complete = true → (∃ e ∈ s, e.is_locked = true) →
      computeStage complete s = StageState.PreparingApplications) := by
  refine ⟨fun hc => ?_, fun hc hs => ?_, fun hc hs hl => ?_, fun hc hl => ?_⟩
  · simp [computeStage, hc]
  · simp [computeStage, hc, hs]
  · have hne : s.isEmpty = false := by
      cases s with
      | nil => exact absurd rfl hs
      | cons a l => rfl
    have hany : s.any (fun e => e.is_locked) = false := by
      simp only [List.any_eq_false]
      intro e he
      simp [hl e he]
    simp [computeStage, hc, hne, hany]
  · obtain ⟨e, he, hel⟩ := hl
    have hne : s.isEmpty = false := by
      cases s with
      | nil => exact absurd he (List.not_mem_nil e)
      | cons a l => rfl
    have hany : s.any (fun e => e.is_locked) = true := by
      simp only [List.any_eq_true]
      exact ⟨e, he, hel⟩
    simp [computeStage, hc, hne, hany]

/-- Witness for C1: a complete profile with one locked entry out of two is
in PreparingApplications. -/
theorem computeStage_cases_witness :
    computeStage true
      [{ identity := { name := "Acme University", country := "Canada" },
         category := Category.target, is_locked := true, added_at := 1 },
       { identity := { name := "Beta College", country := "Germany" },
         category := Category.safe, is_locked := false, added_at := 2 }] =
      StageState.PreparingApplications :=
  (computeStage_cases true _).2.2.2 rfl
    ⟨{ identity := { name := "Acme University", country := "Canada" },
       category := Category.target, is_locked := true, added_at := 1 },
      by simp, rfl⟩

/-- C8: The stage returned by the stage endpoint is a deterministic
function of the current (completeness, shortlist non-empty, any-locked)
state only: any two queries observing identical current state on those
three observations return the same stage; computeStage takes no history
argument, so no stored history or ratchet can influence it. -/
theorem computeStage_state_function (c1 c2 : Bool) (s1 s2 : Shortlist)
    (hc : c1 = c2) (he : s1.isEmpty = s2.isEmpty)
    (hl : s1.any (fun e => e.is_locked) = s2.any (fun e => e.is_locked)) :
    computeStage c1 s1 = computeStage c2 s2 := by
  subst hc
  unfold computeStage
  rw [he, hl]

/-- Witness for C8: two different shortlists with the same emptiness and
lock observations yield the same stage. -/
theorem computeStage_state_function_witness :
    computeStage true
      [{ identity := { name := "Acme University", country := "Canada" },
         category := Category.target, is_locked := false, added_at := 1 }] =
    computeStage true
      [{ identity := { name := "Beta College", country := "Germany" },
         category := Category.safe, is_locked := false, added_at := 9 },
       { identity := { name := "Gamma Institute", country := "Ireland" },
         category := Category.dream, is_locked := false, added_at := 3 }] :=
  computeStage_state_function true true _ _ rfl rfl rfl

/-- C7: The counsellor chat and stream endpoints fail with GateError
exactly when canAccessCounsellor is false, which holds exactly when the
profile is incomplete; with a complete profile the streaming variant
returns the finite list of upstream chunks terminated by the explicit end
marker. -/
theorem counsellor_gate (complete : Bool) (history : List String) (reply : String)
    (chunks : List String) :
    (chat complete history reply = Except.error GateError.gate ↔
      canAccessCounsellor complete = false) ∧
    (streamChat complete history chunks = Except.error GateError.gate ↔
      canAccessCounsellor complete = false) ∧
    (canAccessCounsellor complete = false ↔ complete = false) ∧
    (complete = true → streamChat complete history chunks =
      Except.ok (chunks.map StreamEvent.chunk ++ [StreamEvent.endMarker])) := by
  cases complete <;> simp [chat, streamChat, canAccessCounsellor]

/-- Witness for C7: with a complete profile the stream is the chunk list
closed by the end marker, and an incomplete profile is gated. -/
theorem counsellor_gate_witness :
    streamChat true ["Which universities fit me?"] ["Hello", " there"] =
      Except.ok [StreamEvent.chunk "Hello", StreamEvent.chunk " there", StreamEvent.endMarker] :=
  (counsellor_gate true ["Which universities fit me?"] "" ["Hello", " there"]).2.2.2 rfl

/-- The lock and unlock maps do not change which entries match an
identity. -/
theorem matchesIdentity_setLock (u : UniversityIdentity) (b : Bool) (e : ShortlistEntry) :
    matchesIdentity u (if matchesIdentity u e then { e with is_locked := b } else e) =
      matchesIdentity u e := by
  by_cases h : matchesIdentity u e = true
  · rw [if_pos h]
    rfl
  · rw [if_neg h]

/-- The lock and unlock maps do not change entry identities. -/
theorem identOf_setLock (u : UniversityIdentity) (b : Bool) (e : ShortlistEntry) :
    (if matchesIdentity u e then { e with is_locked := b } else e).identity = e.identity := by
  by_cases h : matchesIdentity u e <;> simp [h]

/-- Mapping the lock or unlock update over a shortlist keeps its identity
list unchanged. -/
theorem identList_map_setLock (s : Shortlist) (u : UniversityIdentity) (b : Bool) :
    ((s.map (fun e => if matchesIdentity u e then { e with is_locked := b } else e)).map
      (fun e => e.identity)) = s.map (fun e => e.identity) := by
  rw [List.map_map]
  exact List.map_congr_left (fun e _ => identOf_setLock u b e)

/-- C4: Removing a locked entry fails with RemoveLockedError and leaves the
shortlist unchanged; after unlocking the same identity, the same remove
succeeds. -/
theorem remove_locked_then_unlock (s : Shortlist) (u : UniversityIdentity)
    (e : ShortlistEntry) (hfind : s.find? (matchesIdentity u) = some e)
    (hlock : e.is_locked = true) :
    remove s u = Except.error ShortlistError.RemoveLockedError ∧
    applyOp s (Op.remove u) = s ∧
    ∀ s', unlock s u = Except.ok s' → ∃ s'', remove s' u = Except.ok s'' := by
  have hrem : remove s u = Except.error ShortlistError.RemoveLockedError := by
    unfold remove
    rw [hfind]
    simp [hlock]
  refine ⟨hrem, by simp [applyOp, hrem, Except.toOption], fun s' hu => ?_⟩
  have hany : s.any (matchesIdentity u) = true := by
    rw [List.any_eq_true]
    exact ⟨e, List.mem_of_find?_eq_some hfind, List.find?_some hfind⟩
  have hs' : s' = s.map
      (fun e => if matchesIdentity u e then { e with is_locked := false } else e) := by
    unfold unlock at hu
    rw [hany] at hu
    simpa using hu.symm
  have hcomp : (matchesIdentity u ∘
      fun e => if matchesIdentity u e then { e with is_locked := false } else e) =
      matchesIdentity u := funext fun e => matchesIdentity_setLock u false e
  have hfind' : s'.find? (matchesIdentity u) =
      some { e with is_locked := false } := by
    rw [hs', List.find?_map, hcomp, hfind, Option.map_some']
    rw [if_pos (List.find?_some hfind)]
  refine ⟨s'.filter (fun x => !matchesIdentity u x), ?_⟩
  unfold remove
  rw [hfind']
  simp

/-- Witness for C4: a locked Acme entry cannot be removed, and after
unlock the remove succeeds. -/
theorem remove_locked_then_unlock_witness :
    remove
      [{ identity := { name := "Acme University", country := "Canada" },
         category := Category.target, is_locked := true, added_at := 5 }]
      { name := "Acme University", country := "Canada" } =
      Except.error ShortlistError.RemoveLockedError :=
  (remove_locked_then_unlock _ _
    { identity := { name := "Acme University", country := "Canada" },
      category := Category.target, is_locked := true, added_at := 5 }
    (by decide) rfl).1

/-- One manager operation preserves the per-user uniqueness invariant. -/
theorem uniqueIdent_applyOp (s : Shortlist) (o : Op) (h : UniqueIdent s) :
    UniqueIdent (applyOp s o) := by
  cases o with
  | add u c t =>
    by_cases hany : s.any (matchesIdentity u) = true
    · simp [applyOp, add, hany]
      exact h
    · have hnot : ∀ e ∈ s, e.identity ≠ u := by
        intro e he
        rw [List.any_eq_true] at hany
        intro heq
        exact hany ⟨e, he, by simp [matchesIdentity, heq]⟩
      simp only [applyOp, add, hany]
      simp only [Bool.false_eq_true, if_false, Except.toOption, Option.getD]
      unfold UniqueIdent
      rw [List.map_append]
      rw [List.nodup_append]
      refine ⟨h, by simp, ?_⟩
      intro i hi hi'
      simp at hi'
      obtain ⟨e, he, heq⟩ := List.mem_map.mp hi
      exact hnot e he (heq.trans hi')
  | remove u =>
    cases hfind : s.find? (matchesIdentity u) with
    | none => simp [applyOp, remove, hfind]; exact h
    | some e =>
      by_cases hl : e.is_locked = true
      · simp [applyOp, remove, hfind, hl]
        exact h
      · simp only [applyOp, remove, hfind]
        rw [if_neg hl]
        simp only [Except.toOption, Option.getD]
        exact List.Nodup.sublist ((List.filter_sublist s).map (fun e => e.identity)) h
  | lock u =>
    by_cases hany : s.any (matchesIdentity u) = true
    · simp only [applyOp, lock, hany, if_true, Except.toOption, Option.getD]
      unfold UniqueIdent
      rw [identList_map_setLock]
      exact h
    · simp [applyOp, lock, hany]
      exact h
  | unlock u =>
    by_cases hany : s.any (matchesIdentity u) = true
    · simp only [applyOp, unlock, hany, if_true, Except.toOption, Option.getD]
      unfold UniqueIdent
      rw [identList_map_setLock]
      exact h
    · simp [applyOp, unlock, hany]
      exact h

/-- Any run of manager operations from a uniqueness-respecting shortlist
preserves the invariant. -/
theorem uniqueIdent_foldl (ops : List Op) (acc : Shortlist) (h : UniqueIdent acc) :
    UniqueIdent (ops.foldl applyOp acc) := by
  induction ops generalizing acc with
  | nil => exact h
  | cons o l ih => exact ih _ (uniqueIdent_applyOp acc o h)

/-- C5: add fails with AlreadyShortlisted exactly when an entry for that
university identity already exists, and after any sequence of operations on
a fresh user the shortlist never holds two entries with the same
identity. -/
theorem add_unique (s : Shortlist) (u : UniversityIdentity) (c : Category)
    (t : Nat) (ops : List Op) :
    (add s u c t = Except.error ShortlistError.AlreadyShortlisted ↔
      ∃ e ∈ s, e.identity = u) ∧
    UniqueIdent (run ops) := by
  constructor
  · by_cases hany : s.any (matchesIdentity u) = true
    · simp only [add, hany, if_true, true_iff]
      rw [List.any_eq_true] at hany
      obtain ⟨e, he, hm⟩ := hany
      exact ⟨e, he, by simpa [matchesIdentity] using hm⟩
    · simp only [add, hany]
      simp only [Bool.false_eq_true, if_false]
      constructor
      · intro hcontra
        exact absurd hcontra (by simp)
      · intro ⟨e, he, heq⟩
        exact absurd (List.any_eq_true.mpr ⟨e, he, by simp [matchesIdentity, heq]⟩) hany
  · exact uniqueIdent_foldl ops [] (by simp [UniqueIdent])

/-- Witness for C5: adding Acme University twice fails the second time, and
running the two adds yields a duplicate-free shortlist. -/
theorem add_unique_witness :
    add
      [{ identity := { name := "Acme University", country := "Canada" },
         category := Category.target, is_locked := false, added_at := 0 }]
      { name := "Acme University", country := "Canada" } Category.target 1 =
      Except.error ShortlistError.AlreadyShortlisted :=
  (add_unique _ _ Category.target 1 []).1.mpr
    ⟨{ identity := { name := "Acme University", country := "Canada" },
       category := Category.target, is_locked := false, added_at := 0 }, by simp, rfl⟩

/-- C6: lock fails with NotFound when no shortlist entry carries the
identity, and is idempotent: locking an already-locked shortlist state
again returns the same state. -/
theorem lock_contract (s : Shortlist) (u : UniversityIdentity) :
    ((∀ e ∈ s, e.identity ≠ u) → lock s u = Except.error ShortlistError.NotFound) ∧
    (∀ s', lock s u = Except.ok s' → lock s' u = Except.ok s') := by
  constructor
  · intro hno
    have hany : s.any (matchesIdentity u) = false := by
      rw [List.any_eq_false]
      intro e he
      simp [matchesIdentity]
      exact hno e he
    simp [lock, hany]
  · intro s' hs'
    by_cases hany : s.any (matchesIdentity u) = true
    · have hmap : s' = s.map
          (fun e => if matchesIdentity u e then { e with is_locked := true } else e) := by
        unfold lock at hs'
        rw [hany] at hs'
        simpa using hs'.symm
      have hany' : s'.any (matchesIdentity u) = true := by
        rw [hmap, List.any_map]
        have : (matchesIdentity u ∘
            fun e => if matchesIdentity u e then { e with is_locked := true } else e) =
            matchesIdentity u := funext fun e => matchesIdentity_setLock u true e
        rw [this]
        exact hany
      unfold lock
      rw [hany']
      simp only [if_true]
      rw [hmap]
      congr 1
      rw [List.map_map]
      refine List.map_congr_left fun e _ => ?_
      by_cases h : matchesIdentity u e = true
      · simp only [Function.comp_apply, if_pos h]
        rw [if_pos (show matchesIdentity u { e with is_locked := true } = true from h)]
      · simp only [Function.comp_apply, if_neg h]
    · unfold lock at hs'
      rw [if_neg hany] at hs'
      exact absurd hs' (by simp)

/-- Witness for C6: locking an absent identity fails with NotFound. -/
theorem lock_contract_witness :
    lock
      [{ identity := { name := "Acme University", country := "Canada" },
         category := Category.target, is_locked := false, added_at := 0 }]
      { name := "Unknown U", country := "Nowhere" } =
      Except.error ShortlistError.NotFound :=
  (lock_contract _ _).1 (by intro e he; simp at he; subst he; decide)

/-- With an oracle that fails on every attempt, no retry succeeds. -/
theorem firstSuccess_none (oracle : ClassifyOracle) (c : CandidateUniversity)
    (hfail : ∀ n, oracle c n = none) : ∀ n, firstSuccess oracle c n = none := by
  intro n
  induction n with
  | zero => rfl
  | succ k ih => simp [firstSuccess, hfail k, ih]

/-- C2: When the external classification call fails for all retries on
every candidate, classify still returns exactly one ClassificationResult
per candidate, each equal to the deterministic fallback heuristic result
with the degraded flag set; returning a plain list (never an error) is how
the engine avoids surfacing a whole-batch failure. -/
theorem classify_degraded_on_total_failure (oracle : ClassifyOracle)
    (p : StudentProfile) (cs : List CandidateUniversity)
    (hfail : ∀ c n, oracle c n = none) :
    classify oracle p cs = cs.map (fallbackClassify p) ∧
    (classify oracle p cs).length = cs.length ∧
    (∀ r ∈ classify oracle p cs, r.degraded = true) := by
  have hone : ∀ c, classifyOne oracle p c = fallbackClassify p c := by
    intro c
    unfold classifyOne
    rw [firstSuccess_none oracle c (hfail c) maxRetries]
  refine ⟨List.map_congr_left fun c _ => hone c, by simp [classify], ?_⟩
  intro r hr
  obtain ⟨c, _, hc⟩ := List.mem_map.mp hr
  rw [← hc, hone c]
  rfl

/-- Witness for C2: a permanently failing oracle yields the degraded
fallback result for the single candidate. -/
theorem classify_degraded_on_total_failure_witness :
    classify (fun _ _ => none)
      { preferred_countries := ["Canada"], budget_range_per_year := BudgetBucket.b20k_40k }
      [{ name := "Acme University", country := "Canada", website := "https://acme.example" }] =
      [fallbackClassify
        { preferred_countries := ["Canada"], budget_range_per_year := BudgetBucket.b20k_40k }
        { name := "Acme University", country := "Canada", website := "https://acme.example" }] :=
  (classify_degraded_on_total_failure (fun _ _ => none) _ _ (fun _ _ => rfl)).1

/-- Replacing the value at one key in an object leaves all other keys
readable as before. -/
theorem getKey_map_set (o : JsObj) (k : String) (v : JsValue) (k' : String)
    (h : k' ≠ k) :
    getKey (o.map (fun p => if p.1 = k then (k, v) else p)) k' = getKey o k' := by
  induction o with
  | nil => rfl
  | cons p l ih =>
    by_cases hk : p.1 = k
    · have h1 : ¬((k, v).1 = k') := fun hkk => h hkk.symm
      have h2 : ¬(p.1 = k') := fun hpk => h (hk.symm.trans hpk).symm
      simp [getKey, hk, h1, h2, ih]
    · simp [getKey, hk, ih]

/-- Appending a fresh key leaves all other keys readable as before. -/
theorem getKey_append_single (o : JsObj) (k : String) (v : JsValue) (k' : String)
    (h : k' ≠ k) : getKey (o ++ [(k, v)]) k' = getKey o k' := by
  induction o with
  | nil =>
    have hne : ¬(k = k') := fun hkk => h hkk.symm
    simp [getKey, hne]
  | cons p l ih => by_cases hp : p.1 = k' <;> simp [getKey, hp, ih]

/-- Reading back the key just replaced in an object that holds it. -/
theorem getKey_map_set_same (o : JsObj) (k : String) (v : JsValue)
    (hany : o.any (fun p => p.1 = k) = true) :
    getKey (o.map (fun p => if p.1 = k then (k, v) else p)) k = some v := by
  induction o with
  | nil => simp at hany
  | cons p l ih =>
    by_cases hk : p.1 = k
    · simp [getKey, hk]
    · rw [List.any_cons] at hany
      have hl : l.any (fun p => p.1 = k) = true := by
        rcases Bool.or_eq_true_iff.mp hany with h1 | h1
        · exact absurd (by simpa using h1) hk
        · exact h1
      simp [getKey, hk, ih hl]

/-- Reading back a key just appended to an object that lacked it. -/
theorem getKey_append_single_same (o : JsObj) (k : String) (v : JsValue)
    (hnone : o.any (fun p => p.1 = k) = false) :
    getKey (o ++ [(k, v)]) k = some v := by
  induction o with
  | nil => simp [getKey]
  | cons p l ih =>
    rw [List.any_cons, Bool.or_eq_false_iff] at hnone
    have hp : ¬(p.1 = k) := by simpa using hnone.1
    simp [getKey, hp, ih hnone.2]

/-- The spread update returns the new value at the written key. -/
theorem getKey_setKey_same (o : JsObj) (k : String) (v : JsValue) :
    getKey (setKey o k v) k = some v := by
  unfold setKey
  cases hany : o.any (fun p => p.1 = k) with
  | true =>
    rw [if_pos rfl]
    exact getKey_map_set_same o k v hany
  | false =>
    rw [if_neg (by simp)]
    exact getKey_append_single_same o k v hany

/-- The spread update leaves every other key unchanged. -/
theorem getKey_setKey_other (o : JsObj) (k : String) (v : JsValue) (k' : String)
    (h : k' ≠ k) : getKey (setKey o k v) k' = getKey o k' := by
  unfold setKey
  cases hany : o.any (fun p => p.1 = k) with
  | true =>
    rw [if_pos rfl]
    exact getKey_map_set o k v k' h
  | false =>
    rw [if_neg (by simp)]
    exact getKey_append_single o k v k' h

/-- C9: updateField replaces only the given field of the given section:
every other section of the form state and every other field of that
section read back unchanged. -/
theorem updateField_frame (prev : JsObj) (sec fld : String) (v : JsValue) :
    (∀ k, k ≠ sec → getKey (updateField prev sec fld v) k = getKey prev k) ∧
    (∀ f, f ≠ fld →
      getKey (getSection (updateField prev sec fld v) sec) f =
        getKey (getSection prev sec) f) := by
  constructor
  · intro k hk
    exact getKey_setKey_other prev sec _ k hk
  · intro f hf
    have hsec : getSection (updateField prev sec fld v) sec =
        setKey (getSection prev sec) fld v := by
      unfold getSection updateField
      rw [getKey_setKey_same]
      rfl
    rw [hsec]
    exact getKey_setKey_other (getSection prev sec) fld v f hf

/-- Witness for C9: writing the field of study leaves the budget section
and the intake year field untouched. -/
theorem updateField_frame_witness :
    getKey
      (updateField
        [("study_goal", JsValue.vobj
            [("field_of_study", JsValue.vstr "Physics"),
             ("target_intake_year", JsValue.vnum 2027)]),
         ("budget", JsValue.vobj
            [("budget_range_per_year", JsValue.vstr "20k_40k")])]
        "study_goal" "field_of_study" (JsValue.vstr "Data Science"))
      "budget" =
    getKey
      [("study_goal", JsValue.vobj
          [("field_of_study", JsValue.vstr "Physics"),
           ("target_intake_year", JsValue.vnum 2027)]),
       ("budget", JsValue.vobj
          [("budget_range_per_year", JsValue.vstr "20k_40k")])]
      "budget" :=
  (updateField_frame _ "study_goal" "field_of_study" (JsValue.vstr "Data Science")).1
    "budget" (by decide)

/-- Counterexample for C10: starting from the selections United States then
United Kingdom, clicking United States twice leaves it selected but moves
it to the end of the list, so the original list is not restored. -/
theorem toggleCountry_twice_counterexample :
    toggleCountry (toggleCountry ["United States", "United Kingdom"] "United States")
      "United States" ≠ ["United States", "United Kingdom"] := by
  decide

/-- C10 (amended): clicking the same country twice in succession restores
the original selection up to order (a permutation); it restores the list
exactly when the country was not previously selected; and a duplicate-free
list never acquires a duplicate entry. -/
theorem toggleCountry_toggle (current : List String) (country : String)
    (hnd : current.Nodup) :
    (toggleCountry (toggleCountry current country) country).Perm current ∧
    (country ∉ current →
      toggleCountry (toggleCountry current country) country = current) ∧
    (toggleCountry current country).Nodup := by
  by_cases hc : country ∈ current
  · have hb : current.contains country = true := List.elem_iff.mpr hc
    have h1 : toggleCountry current country =
        current.filter (fun c => c ≠ country) := by
      unfold toggleCountry
      rw [if_pos hb]
    have hmemf : country ∉ current.filter (fun c => c ≠ country) := by
      intro hmem
      have := (List.mem_filter.mp hmem).2
      simp at this
    have hbf : (current.filter (fun c => c ≠ country)).contains country = false := by
      cases hcb : (current.filter (fun c => c ≠ country)).contains country with
      | false => rfl
      | true => exact absurd (List.elem_iff.mp hcb) hmemf
    have h2 : toggleCountry (toggleCountry current country) country =
        current.filter (fun c => c ≠ country) ++ [country] := by
      rw [h1]
      unfold toggleCountry
      rw [if_neg (by simp [hbf])]
    have hfe : current.filter (fun c => c ≠ country) = current.erase country := by
      rw [List.Nodup.erase_eq_filter hnd]
      exact List.filter_congr fun a _ => by
        by_cases h2 : a = country <;> simp [h2, bne]
    refine ⟨?_, fun hno => absurd hc hno, ?_⟩
    · rw [h2, hfe]
      exact (List.perm_append_singleton country (current.erase country)).trans
        (List.perm_cons_erase hc).symm
    · rw [h1]
      exact hnd.filter _
  · have hb : current.contains country = false := by
      cases hcb : current.contains country with
      | false => rfl
      | true => exact absurd (List.elem_iff.mp hcb) hc
    have h1 : toggleCountry current country = current ++ [country] := by
      unfold toggleCountry
      rw [if_neg (by simpa using hc)]
    have hb2 : (current ++ [country]).contains country = true :=
      List.elem_iff.mpr (by simp)
    have h2 : toggleCountry (toggleCountry current country) country = current := by
      rw [h1]
      unfold toggleCountry
      rw [if_pos hb2, List.filter_append]
      have hl : current.filter (fun c => c ≠ country) = current :=
        List.filter_eq_self.mpr fun a ha => by
          simp
          exact fun heq => hc (heq ▸ ha)
      have hr : ([country].filter (fun c => c ≠ country) : List String) = [] := by
        simp
      rw [hl, hr, List.append_nil]
    refine ⟨?_, fun _ => h2, ?_⟩
    · rw [h2]
    rw [h1, List.nodup_append]
    exact ⟨hnd, by simp, fun a ha hb' => by simp at hb'; exact hc (hb' ▸ ha)⟩

/-- Witness for C10: toggling a country that is not selected and toggling
it again restores the selection list exactly. -/
theorem toggleCountry_toggle_witness :
    toggleCountry (toggleCountry ["United States"] "Canada") "Canada" =
      ["United States"] :=
  (toggleCountry_toggle ["United States"] "Canada" (by decide)).2.1 (by decide)

/-- The identity-replacement map of the deduplication step keeps the
identity list unchanged. -/
theorem identOf_map_replace (acc : List ClassificationResult)
    (r : ClassificationResult) :
    (acc.map (fun b => if identOf b = identOf r then r else b)).map identOf =
      acc.map identOf := by
  rw [List.map_map]
  refine List.map_congr_left fun b _ => ?_
  by_cases hb : identOf b = identOf r
  · simp [Function.comp, hb]
  · simp [Function.comp, hb]

/-- Equation of the deduplication step when the identity is new. -/
theorem dedupStep_eq_append (acc : List ClassificationResult)
    (r : ClassificationResult)
    (hf : acc.find? (fun a => decide (identOf a = identOf r)) = none) :
    dedupStep acc r = acc ++ [r] := by
  unfold dedupStep
  rw [hf]

/-- Equation of the deduplication step on an identity collision. -/
theorem dedupStep_eq_collide (acc : List ClassificationResult)
    (r a0 : ClassificationResult)
    (hf : acc.find? (fun a => decide (identOf a = identOf r)) = some a0) :
    dedupStep acc r =
      if (a0.degraded && !r.degraded) = true then
        acc.map (fun b => if identOf b = identOf r then r else b)
      else acc := by
  unfold dedupStep
  rw [hf]

/-- The element found on an identity collision is stored and carries the
colliding identity. -/
theorem find?_collide (acc : List ClassificationResult)
    (r a0 : ClassificationResult)
    (hf : acc.find? (fun a => decide (identOf a = identOf r)) = some a0) :
    a0 ∈ acc ∧ identOf a0 = identOf r := by
  refine ⟨List.mem_of_find?_eq_some hf, ?_⟩
  have h2 := List.find?_some hf
  simpa using h2

/-- One deduplication step preserves the no-duplicate-identities
invariant. -/
theorem nodup_dedupStep (acc : List ClassificationResult)
    (r : ClassificationResult) (h : (acc.map identOf).Nodup) :
    ((dedupStep acc r).map identOf).Nodup := by
  cases hf : acc.find? (fun a => decide (identOf a = identOf r)) with
  | none =>
    rw [dedupStep_eq_append acc r hf, List.map_append, List.nodup_append]
    refine ⟨h, by simp, ?_⟩
    intro i hi hi'
    simp at hi'
    obtain ⟨a, ha, hai⟩ := List.mem_map.mp hi
    have := List.find?_eq_none.mp hf a ha
    simp at this
    exact this (hai.trans hi')
  | some a0 =>
    rw [dedupStep_eq_collide acc r a0 hf]
    by_cases hc : (a0.degraded && !r.degraded) = true
    · rw [if_pos hc, identOf_map_replace]
      exact h
    · rw [if_neg hc]
      exact h

/-- Identities present before a deduplication step are present after
it. -/
theorem mem_identOf_dedupStep (acc : List ClassificationResult)
    (r : ClassificationResult) (i : UniversityIdentity)
    (hi : i ∈ acc.map identOf) : i ∈ (dedupStep acc r).map identOf := by
  cases hf : acc.find? (fun a => decide (identOf a = identOf r)) with
  | none =>
    rw [dedupStep_eq_append acc r hf, List.map_append]
    exact List.mem_append_left _ hi
  | some a0 =>
    rw [dedupStep_eq_collide acc r a0 hf]
    by_cases hc : (a0.degraded && !r.degraded) = true
    · rw [if_pos hc, identOf_map_replace]
      exact hi
    · rw [if_neg hc]
      exact hi

/-- The identity of the incoming result is present after the deduplication
step. -/
theorem identOf_mem_dedupStep (acc : List ClassificationResult)
    (r : ClassificationResult) :
    identOf r ∈ (dedupStep acc r).map identOf := by
  cases hf : acc.find? (fun a => decide (identOf a = identOf r)) with
  | none =>
    rw [dedupStep_eq_append acc r hf, List.map_append]
    exact List.mem_append_right _ (by simp)
  | some a0 =>
    obtain ⟨ha0, hid⟩ := find?_collide acc r a0 hf
    rw [dedupStep_eq_collide acc r a0 hf]
    by_cases hc : (a0.degraded && !r.degraded) = true
    · rw [if_pos hc, identOf_map_replace]
      exact hid ▸ List.mem_map.mpr ⟨a0, ha0, rfl⟩
    · rw [if_neg hc]
      exact hid ▸ List.mem_map.mpr ⟨a0, ha0, rfl⟩

/-- Every element after a deduplication step is a previously stored element
or the incoming result. -/
theorem mem_of_mem_dedupStep (acc : List ClassificationResult)
    (r a : ClassificationResult) (ha : a ∈ dedupStep acc r) :
    a ∈ acc ∨ a = r := by
  cases hf : acc.find? (fun a => decide (identOf a = identOf r)) with
  | none =>
    rw [dedupStep_eq_append acc r hf] at ha
    rcases List.mem_append.mp ha with h | h
    · exact Or.inl h
    · simp at h
      exact Or.inr h
  | some a0 =>
    rw [dedupStep_eq_collide acc r a0 hf] at ha
    by_cases hc : (a0.degraded && !r.degraded) = true
    · rw [if_pos hc] at ha
      obtain ⟨b, hb, hba⟩ := List.mem_map.mp ha
      by_cases hbi : identOf b = identOf r
      · rw [if_pos hbi] at hba
        exact Or.inr hba.symm
      · rw [if_neg hbi] at hba
        exact Or.inl (hba ▸ hb)
    · rw [if_neg hc] at ha
      exact Or.inl ha

/-- Invariants of the full deduplication fold: no duplicate identities, all
stored identities survive, every input identity is represented, and every
stored element came from the accumulator or the input. -/
theorem dedup_foldl_invariant (l : List ClassificationResult)
    (acc : List ClassificationResult) (h : (acc.map identOf).Nodup) :
    (((l.foldl dedupStep acc).map identOf).Nodup) ∧
    (∀ i ∈ acc.map identOf, i ∈ (l.foldl dedupStep acc).map identOf) ∧
    (∀ r ∈ l, identOf r ∈ (l.foldl dedupStep acc).map identOf) ∧
    (∀ a ∈ l.foldl dedupStep acc, a ∈ acc ∨ a ∈ l) := by
  induction l generalizing acc with
  | nil =>
    exact ⟨h, fun i hi => hi, by simp, fun a ha => Or.inl ha⟩
  | cons r l ih =>
    obtain ⟨N, G, L, M⟩ := ih (dedupStep acc r) (nodup_dedupStep acc r h)
    refine ⟨N, ?_, ?_, ?_⟩
    · intro i hi
      exact G i (mem_identOf_dedupStep acc r i hi)
    · intro r' hr'
      rcases List.mem_cons.mp hr' with h1 | h1
      · subst h1
        exact G (identOf r') (identOf_mem_dedupStep acc r')
      · exact L r' h1
    · intro a ha
      rcases M a ha with h1 | h1
      · rcases mem_of_mem_dedupStep acc r a h1 with h2 | h2
        · exact Or.inl h2
        · exact Or.inr (List.mem_cons.mpr (Or.inl h2))
      · exact Or.inr (List.mem_cons.mpr (Or.inr h1))

/-- If a degraded result for an identity survives the deduplication fold,
every accumulator entry and every input with that identity was degraded:
the fold keeps a non-degraded result whenever one exists. -/
theorem dedup_foldl_degraded (l : List ClassificationResult)
    (acc : List ClassificationResult) (i : UniversityIdentity)
    (hnd : (acc.map identOf).Nodup)
    (hstored : ∃ a ∈ l.foldl dedupStep acc, identOf a = i ∧ a.degraded = true) :
    (∀ x ∈ acc, identOf x = i → x.degraded = true) ∧
    (∀ x ∈ l, identOf x = i → x.degraded = true) := by
  induction l generalizing acc with
  | nil =>
    obtain ⟨a, ha, hai, had⟩ := hstored
    refine ⟨fun x hx hxi => ?_, by simp⟩
    have hxa : x = a := List.inj_on_of_nodup_map hnd hx ha (hxi.trans hai.symm)
    exact hxa ▸ had
  | cons r l ih =>
    have hnd' := nodup_dedupStep acc r hnd
    obtain ⟨H1, H2⟩ := ih (dedupStep acc r) hnd' hstored
    have step1 : ∀ x ∈ acc, identOf x = i → x.degraded = true := by
      intro x hx hxi
      cases hf : acc.find? (fun a => decide (identOf a = identOf r)) with
      | none =>
        rw [dedupStep_eq_append acc r hf] at H1
        exact H1 x (List.mem_append_left _ hx) hxi
      | some a0 =>
        obtain ⟨ha0, hid⟩ := find?_collide acc r a0 hf
        rw [dedupStep_eq_collide acc r a0 hf] at H1
        by_cases hc : (a0.degraded && !r.degraded) = true
        · rw [if_pos hc] at H1
          by_cases hxr : identOf x = identOf r
          · have hxa0 : x = a0 :=
              List.inj_on_of_nodup_map hnd hx ha0 (hxr.trans hid.symm)
            exact hxa0 ▸ ((Bool.and_eq_true _ _ ▸ hc).1)
          · have hmem : x ∈ acc.map (fun b => if identOf b = identOf r then r else b) :=
              List.mem_map.mpr ⟨x, hx, by rw [if_neg hxr]⟩
            exact H1 x hmem hxi
        · rw [if_neg hc] at H1
          exact H1 x hx hxi
    refine ⟨step1, ?_⟩
    intro x hx hxi
    rcases List.mem_cons.mp hx with h1 | h1
    · subst h1
      cases hf : acc.find? (fun a => decide (identOf a = identOf x)) with
      | none =>
        rw [dedupStep_eq_append acc x hf] at H1
        exact H1 x (List.mem_append_right _ (by simp)) hxi
      | some a0 =>
        obtain ⟨ha0, hid⟩ := find?_collide acc x a0 hf
        rw [dedupStep_eq_collide acc x a0 hf] at H1
        by_cases hc : (a0.degraded && !x.degraded) = true
        · rw [if_pos hc] at H1
          have hxmem : x ∈ acc.map (fun b => if identOf b = identOf x then x else b) :=
            List.mem_map.mpr ⟨a0, ha0, by rw [if_pos hid]⟩
          exact H1 x hxmem hxi
        · cases hdx : x.degraded with
          | true => rfl
          | false =>
            have ha0d : a0.degraded = true := step1 a0 ha0 (hid.trans hxi)
            exact absurd (by rw [ha0d, hdx]; rfl) hc
    · exact H2 x h1 hxi

/-- The three category filters of a result list, concatenated, are a
permutation of the list: every result has exactly one of the three
categories. -/
theorem tiers_filter_perm (d : List ClassificationResult) :
    (d.filter (fun r => decide (r.category = Category.dream)) ++
      (d.filter (fun r => decide (r.category = Category.target)) ++
        d.filter (fun r => decide (r.category = Category.safe)))).Perm d := by
  have h1 := List.filter_append_perm (fun r => decide (r.category = Category.dream)) d
  have h2 := List.filter_append_perm (fun r => decide (r.category = Category.target))
    (d.filter (fun r => !decide (r.category = Category.dream)))
  have e1 : (d.filter (fun r => !decide (r.category = Category.dream))).filter
      (fun r => decide (r.category = Category.target)) =
      d.filter (fun r => decide (r.category = Category.target)) := by
    rw [List.filter_filter]
    exact List.filter_congr fun r _ => by cases hc : r.category <;> simp [hc]
  have e2 : (d.filter (fun r => !decide (r.category = Category.dream))).filter
      (fun r => !decide (r.category = Category.target)) =
      d.filter (fun r => decide (r.category = Category.safe)) := by
    rw [List.filter_filter]
    exact List.filter_congr fun r _ => by cases hc : r.category <;> simp [hc]
  rw [e1, e2] at h2
  exact (List.Perm.append_left _ h2).trans h1

/-- The flattened aggregator output is a permutation of the deduplicated
result list. -/
theorem allTiers_perm_dedup (rs : List ClassificationResult) :
    (allTiers (aggregate rs)).Perm (dedup rs) := by
  unfold allTiers aggregate
  rw [List.append_assoc]
  exact ((List.perm_insertionSort aggLE _).append
    ((List.perm_insertionSort aggLE _).append
      (List.perm_insertionSort aggLE _))).trans (tiers_filter_perm (dedup rs))

/-- C3: aggregate partitions every candidate into exactly one of the three
tiers - the flattened output has no duplicate university identities, every
input candidate identity appears, and every output entry is one of the
inputs; when both a degraded and a non-degraded result exist for the same
identity, the kept entry is non-degraded; and the ordering inside each tier
is the deterministic one, sorted by descending acceptance chance then name,
with each tier holding exactly its own category. -/
theorem aggregate_partition (rs : List ClassificationResult) :
    (((allTiers (aggregate rs)).map identOf).Nodup) ∧
    (∀ r ∈ rs, identOf r ∈ (allTiers (aggregate rs)).map identOf) ∧
    (∀ a ∈ allTiers (aggregate rs), a ∈ rs) ∧
    (∀ i : UniversityIdentity, (∃ x ∈ rs, identOf x = i ∧ x.degraded = false) →
      ∀ a ∈ allTiers (aggregate rs), identOf a = i → a.degraded = false) ∧
    ((aggregate rs).dream.Sorted aggLE ∧ (aggregate rs).target.Sorted aggLE ∧
      (aggregate rs).safe.Sorted aggLE) ∧
    ((∀ a ∈ (aggregate rs).dream, a.category = Category.dream) ∧
      (∀ a ∈ (aggregate rs).target, a.category = Category.target) ∧
      (∀ a ∈ (aggregate rs).safe, a.category = Category.safe)) := by
  have hperm := allTiers_perm_dedup rs
  have hpermI := hperm.map identOf
  obtain ⟨N, _, L, M⟩ := dedup_foldl_invariant rs [] (by simp)
  refine ⟨?_, ?_, ?_, ?_, ⟨?_, ?_, ?_⟩, ?_, ?_, ?_⟩
  · exact hpermI.nodup_iff.mpr N
  · intro r hr
    exact hpermI.mem_iff.mpr (L r hr)
  · intro a ha
    rcases M a (hperm.mem_iff.mp ha) with h | h
    · simp at h
    · exact h
  · intro i hex a ha hai
    cases hd : a.degraded with
    | false => rfl
    | true =>
      obtain ⟨x, hx, hxi, hxd⟩ := hex
      have hdeg := dedup_foldl_degraded rs [] i (by simp)
        ⟨a, hperm.mem_iff.mp ha, hai, hd⟩
      have hxdeg := hdeg.2 x hx hxi
      rw [hxd] at hxdeg
      exact absurd hxdeg (by simp)
  · exact List.sorted_insertionSort aggLE _
  · exact List.sorted_insertionSort aggLE _
  · exact List.sorted_insertionSort aggLE _
  · intro a ha
    have ha' := (List.mem_insertionSort aggLE).mp ha
    exact of_decide_eq_true (List.mem_filter.mp ha').2
  · intro a ha
    have ha' := (List.mem_insertionSort aggLE).mp ha
    exact of_decide_eq_true (List.mem_filter.mp ha').2
  · intro a ha
    have ha' := (List.mem_insertionSort aggLE).mp ha
    exact of_decide_eq_true (List.mem_filter.mp ha').2

/-- Witness for C3: a concrete non-degraded target result appears in the
aggregated output. -/
theorem aggregate_partition_witness :
    identOf
      { candidate := { name := "Acme University", country := "Canada", website := "w" },
        category := Category.target, fit_reasons := ["Strong fit"], risks := [],
        cost_level := CostLevel.medium, acceptance_chance := Chance.medium,
        degraded := false } ∈
    (allTiers (aggregate
      [{ candidate := { name := "Acme University", country := "Canada", website := "w" },
         category := Category.target, fit_reasons := ["Strong fit"], risks := [],
         cost_level := CostLevel.medium, acceptance_chance := Chance.medium,
         degraded := false }])).map identOf :=
  (aggregate_partition _).2.1 _ (by simp)

end SentinelAI
